import Mathlib

/-!
# etcdctl `del` command (`etcdctl/ctlv3/command/del_command.go`)

A shallow embedding of `getDelOp` and `delCommandFunc`.

* Go strings are byte sequences: `GoString := List (Fin 256)`.
* The package-level flag variables `delPrefix`, `delPrevKV`, `delFromKey`,
  `delKeyContains`, `delExecute` are read-only inside both functions; they are
  passed explicitly as a `Flags` record.
* `ExitWithError(code, err)` ends the process; a function that may call it
  returns `Except Exit _`, and nothing after the call is executed.
* The etcd client is a state machine over an arbitrary state type `σ`; every
  call returns the next state and either a response or the store's error.
* What the command does to the outside world is recorded as a list of `Event`s
  in program order: store calls (with their outcome) and printed reports.
-/

namespace DelCommand

/-- A Go `string`: an immutable sequence of bytes. -/
abbrev GoString := List (Fin 256)

/-- The `clientv3.OpOption` values built by this file. -/
inductive OpOption where
  | WithRange (endKey : GoString)
  | WithPrefix
  | WithFromKey
  | WithPrevKV
  deriving DecidableEq, Repr

/-- The package-level flag variables of `del_command.go`. -/
structure Flags where
  delPrefix : Bool
  delPrevKV : Bool
  delFromKey : Bool
  delKeyContains : GoString
  delExecute : Bool
  deriving DecidableEq, Repr

/-- The exit classes used by this file (`ExitError`, `ExitBadArgs`). -/
inductive ExitCode where
  | ExitError
  | ExitBadArgs
  deriving DecidableEq, Repr

/-- A Go `error` value: one built by `fmt.Errorf` in this file, or one returned
by the store client (identified by an arbitrary number). -/
inductive GoError where
  | Errorf (msg : String)
  | Store (id : Nat)
  deriving DecidableEq, Repr

/-- The arguments of a call `ExitWithError(code, err)`. -/
structure Exit where
  code : ExitCode
  err : GoError
  deriving DecidableEq, Repr

/-- The function `getDelOp(args)`, lines 83-121. `args[0]` and `args[1]` are
read only after the length checks, so the defaults of `headD` and `getD` are
never used. -/
def getDelOp (f : Flags) (args : List GoString) : Except Exit (GoString × List OpOption) := do
  if args.length = 0 ∨ args.length > 2 then
    throw ⟨.ExitBadArgs,
      .Errorf "del command needs one argument as key and an optional argument as range_end"⟩
  if f.delPrefix && f.delFromKey then
    throw ⟨.ExitBadArgs,
      .Errorf "`--prefix` and `--from-key` cannot be set at the same time, choose one"⟩
  let mut opts : List OpOption := []
  let mut key : GoString := args.headD []
  if args.length > 1 then
    if f.delPrefix || f.delFromKey then
      throw ⟨.ExitBadArgs,
        .Errorf "too many arguments, only accept one argument when `--prefix` or `--from-key` is set"⟩
    opts := opts ++ [.WithRange (args.getD 1 [])]
  if f.delPrefix then
    if key.length = 0 then
      key := [0]
      opts := opts ++ [.WithFromKey]
    else
      opts := opts ++ [.WithPrefix]
  if f.delPrevKV then
    opts := opts ++ [.WithPrevKV]
  if f.delFromKey then
    if key.length = 0 then
      key := [0]
    opts := opts ++ [.WithFromKey]
  return (key, opts)

/-- Go's `strings.Contains(s, substr)`: `substr` occurs in `s` at some byte
offset (`strings.Index(s, substr) >= 0`). -/
def stringsContains : GoString → GoString → Bool
  | [], substr => substr.isPrefixOf []
  | c :: s, substr => substr.isPrefixOf (c :: s) || stringsContains s substr

/-- The fields of `mvccpb.KeyValue` that the command reads or prints. -/
structure KeyValue where
  Key : GoString
  Value : GoString
  deriving DecidableEq, Repr

/-- The part of `clientv3.GetResponse` that the command reads. -/
structure GetResponse where
  Kvs : List KeyValue
  deriving DecidableEq, Repr

/-- The part of `clientv3.DeleteResponse` handed to `display.Del`. -/
structure DeleteResponse where
  Deleted : Int
  PrevKvs : List KeyValue
  deriving DecidableEq, Repr

deriving instance DecidableEq for Except

/-- The connected store client returned by `mustClientFromCmd`: `Get` and
`Delete` take the store's state, the key and the options, and return the next
state with the response or the error. -/
structure Client (σ : Type) where
  Get : σ → GoString → List OpOption → σ × Except GoError GetResponse
  Delete : σ → GoString → List OpOption → σ × Except GoError DeleteResponse

/-- What one run does to the outside world, in program order. -/
inductive Event where
  /-- The call `client.Get(ctx, key, opts...)` and what it returned. -/
  | Get (key : GoString) (opts : List OpOption) (res : Except GoError GetResponse)
  /-- The call `client.Delete(ctx, key, opts...)` and what it returned. -/
  | Delete (key : GoString) (opts : List OpOption) (res : Except GoError DeleteResponse)
  /-- The line `fmt.Printf("Found Key %s. Binary is: % x\n", sk, kv.Key)`. -/
  | PrintFound (sk : GoString) (key : GoString)
  /-- The line `fmt.Printf("deleting key...\n")`. -/
  | PrintDeleting
  /-- The call `display.Del(*resp)`. -/
  | DisplayDel (resp : DeleteResponse)
  deriving DecidableEq

/-- The result of running the command: the events in order, the store's final
state, and the `ExitWithError` call that ended the run (`none`: the function
returned). -/
structure Outcome (σ : Type) where
  trace : List Event
  store : σ
  exit : Option Exit
  deriving DecidableEq

/-- The outcome `r` preceded by the events `evs`. -/
def Outcome.after {σ : Type} (evs : List Event) (r : Outcome σ) : Outcome σ :=
  ⟨evs ++ r.trace, r.store, r.exit⟩

/-- The loop `for _, kv := range getResp.Kvs`, lines 60-73. -/
def delContainsLoop {σ : Type} (c : Client σ) (f : Flags) : List KeyValue → σ → Outcome σ
  | [], s => ⟨[], s, none⟩
  | kv :: kvs, s =>
    let sk : GoString := kv.Key
    if stringsContains sk f.delKeyContains then
      if f.delExecute then
        match c.Delete s kv.Key [] with
        | (s', .error err) =>
          ⟨[.PrintFound sk kv.Key, .PrintDeleting, .Delete kv.Key [] (.error err)], s',
            some ⟨.ExitError, err⟩⟩
        | (s', .ok resp) =>
          (delContainsLoop c f kvs s').after
            [.PrintFound sk kv.Key, .PrintDeleting, .Delete kv.Key [] (.ok resp), .DisplayDel resp]
      else
        (delContainsLoop c f kvs s).after [.PrintFound sk kv.Key]
    else
      delContainsLoop c f kvs s

/-- The function `delCommandFunc(cmd, args)`, lines 50-81, run on the client `c`
in store state `s`. -/
def delCommandFunc {σ : Type} (c : Client σ) (f : Flags) (args : List GoString) (s : σ) :
    Outcome σ :=
  match getDelOp f args with
  | .error e => ⟨[], s, some e⟩
  | .ok (key, opts) =>
    if f.delKeyContains.length > 0 then
      match c.Get s [0] [.WithRange [], .WithFromKey] with
      | (s', .error err) =>
        ⟨[.Get [0] [.WithRange [], .WithFromKey] (.error err)], s', some ⟨.ExitError, err⟩⟩
      | (s', .ok getResp) =>
        (delContainsLoop c f getResp.Kvs s').after
          [.Get [0] [.WithRange [], .WithFromKey] (.ok getResp)]
    else
      match c.Delete s key opts with
      | (s', .error err) => ⟨[.Delete key opts (.error err)], s', some ⟨.ExitError, err⟩⟩
      | (s', .ok resp) => ⟨[.Delete key opts (.ok resp), .DisplayDel resp], s', none⟩

/-- The `(key, options)` of the `client.Get` calls of a trace, in order. -/
def scanCalls : List Event → List (GoString × List OpOption)
  | [] => []
  | .Get k o _ :: evs => (k, o) :: scanCalls evs
  | _ :: evs => scanCalls evs

/-- The `(key, options)` of the `client.Delete` calls of a trace, in order. -/
def deleteCalls : List Event → List (GoString × List OpOption)
  | [] => []
  | .Delete k o _ :: evs => (k, o) :: deleteCalls evs
  | _ :: evs => deleteCalls evs

/-- The keys of the "Found Key" lines of a trace, in order. -/
def matchReports : List Event → List GoString
  | [] => []
  | .PrintFound _ k :: evs => k :: matchReports evs
  | _ :: evs => matchReports evs

/-- The responses handed to `display.Del` in a trace, in order. -/
def delReports : List Event → List DeleteResponse
  | [] => []
  | .DisplayDel r :: evs => r :: delReports evs
  | _ :: evs => delReports evs

/-- A store used to run the command on concrete inputs: the state is the list of
stored key-values, `Get` returns all of them, `Delete` removes the entries with
the given key and reports how many there were. -/
def listStore : Client (List KeyValue) where
  Get := fun s _ _ => (s, .ok ⟨s⟩)
  Delete := fun s k _ =>
    (s.filter (fun kv => kv.Key != k), .ok ⟨(s.filter (fun kv => kv.Key == k)).length, []⟩)

/-- Whether the event is a `client.Delete` call that returned an error. -/
def failedDelete : Event → Bool
  | .Delete _ _ (.error _) => true
  | _ => false

/-- The key-values of a scan result whose key contains `substr` as a byte-wise
substring (`substr` is a contiguous infix of the key), in scan order. This is
the specification of a match; the code tests `strings.Contains`. -/
def matchingKvs (substr : GoString) (kvs : List KeyValue) : List KeyValue :=
  kvs.filter (fun kv => decide (substr <:+: kv.Key))

/-- The events of one executed match: the report, the notice, the delete call
by exact key with no options and its successful response, and the display of
that response. -/
def executedMatch (kv : KeyValue) (resp : DeleteResponse) : List Event :=
  [.PrintFound kv.Key kv.Key, .PrintDeleting, .Delete kv.Key [] (.ok resp), .DisplayDel resp]

/-- The error of a failed store call: `some err` when the event is a
`client.Get` or `client.Delete` call that returned the error `err`, `none` for
every other event. -/
def callError : Event → Option GoError
  | .Get _ _ (.error err) => some err
  | .Delete _ _ (.error err) => some err
  | _ => none

/-- What the `client.Delete` calls of a trace returned, in order. -/
def deleteResults : List Event → List (Except GoError DeleteResponse)
  | [] => []
  | .Delete _ _ r :: evs => r :: deleteResults evs
  | _ :: evs => deleteResults evs

/-- A store used to run the command on inputs where a call fails: the state is
the stored key-values and the number of calls that still succeed. A call made
when that number is 0 returns the error `Store 1`; any other call behaves as on
`listStore` and lowers the number by one. -/
def faultyStore : Client (List KeyValue × Nat) where
  Get := fun s _ _ =>
    match s.2 with
    | 0 => (s, .error (.Store 1))
    | n + 1 => ((s.1, n), .ok ⟨s.1⟩)
  Delete := fun s k _ =>
    match s.2 with
    | 0 => (s, .error (.Store 1))
    | n + 1 =>
      ((s.1.filter (fun kv => kv.Key != k), n),
        .ok ⟨(s.1.filter (fun kv => kv.Key == k)).length, []⟩)

/-- Whether the option shapes the range of the request (`WithRange`,
`WithPrefix`, `WithFromKey`) rather than its reply (`WithPrevKV`). -/
def isRangeOption : OpOption → Bool
  | .WithRange _ => true
  | .WithPrefix => true
  | .WithFromKey => true
  | .WithPrevKV => false

/-- Modelled from the spec: the `DeleteRequest` of sections 3 and 4.1, a key,
the explicit range end or derived range option, and whether the previous
key-values are requested. The range is kept as the range-shaping options. -/
structure DeleteRequest where
  key : GoString
  range : List OpOption
  includePrevKV : Bool
  deriving DecidableEq, Repr

/-- Modelled from the spec: the `DeleteRequest` that a key and an option list
stand for (section 4.1, "Result"). -/
def toDeleteRequest (r : GoString × List OpOption) : DeleteRequest :=
  ⟨r.1, r.2.filter isRangeOption, r.2.contains .WithPrevKV⟩

/-- The function `getDelOp(args)` run on the package-level variables: the state
is the five flag variables, read where the source reads them. The source has no
assignment to any of them in this function (`key` and `opts` are locals). -/
def getDelOpGlobals (args : List GoString) :
    StateT Flags (Except Exit) (GoString × List OpOption) := do
  if args.length = 0 ∨ args.length > 2 then
    throw ⟨.ExitBadArgs,
      .Errorf "del command needs one argument as key and an optional argument as range_end"⟩
  if (← get).delPrefix && (← get).delFromKey then
    throw ⟨.ExitBadArgs,
      .Errorf "`--prefix` and `--from-key` cannot be set at the same time, choose one"⟩
  let mut opts : List OpOption := []
  let mut key : GoString := args.headD []
  if args.length > 1 then
    if (← get).delPrefix || (← get).delFromKey then
      throw ⟨.ExitBadArgs,
        .Errorf "too many arguments, only accept one argument when `--prefix` or `--from-key` is set"⟩
    opts := opts ++ [.WithRange (args.getD 1 [])]
  if (← get).delPrefix then
    if key.length = 0 then
      key := [0]
      opts := opts ++ [.WithFromKey]
    else
      opts := opts ++ [.WithPrefix]
  if (← get).delPrevKV then
    opts := opts ++ [.WithPrevKV]
  if (← get).delFromKey then
    if key.length = 0 then
      key := [0]
    opts := opts ++ [.WithFromKey]
  return (key, opts)

/-! ## `getDelOp` -/

/-- The body of `getDelOp` with the monadic control flow unfolded into nested
conditionals. -/
theorem getDelOp_eq (f : Flags) (args : List GoString) :
    getDelOp f args =
      if args.length = 0 ∨ args.length > 2 then
        .error ⟨.ExitBadArgs,
          .Errorf "del command needs one argument as key and an optional argument as range_end"⟩
      else if f.delPrefix && f.delFromKey then
        .error ⟨.ExitBadArgs,
          .Errorf "`--prefix` and `--from-key` cannot be set at the same time, choose one"⟩
      else if args.length > 1 ∧ (f.delPrefix || f.delFromKey) then
        .error ⟨.ExitBadArgs,
          .Errorf "too many arguments, only accept one argument when `--prefix` or `--from-key` is set"⟩
      else
        .ok
          (if (f.delPrefix || f.delFromKey) ∧ args.headD [] = [] then [0] else args.headD [],
            (if args.length > 1 then [OpOption.WithRange (args.getD 1 [])] else []) ++
              (if f.delPrefix then
                (if args.headD [] = [] then [OpOption.WithFromKey] else [OpOption.WithPrefix])
               else []) ++
              (if f.delPrevKV then [OpOption.WithPrevKV] else []) ++
              (if f.delFromKey then [OpOption.WithFromKey] else [])) := by
  obtain ⟨p, pv, fk, kc, ex⟩ := f
  match args with
  | [] => rfl
  | [[]] => cases p <;> cases fk <;> cases pv <;> rfl
  | [_ :: _] => cases p <;> cases fk <;> cases pv <;> rfl
  | [[], _] => cases p <;> cases fk <;> cases pv <;> rfl
  | [_ :: _, _] => cases p <;> cases fk <;> cases pv <;> rfl
  | _ :: _ :: _ :: _ =>
    simp [getDelOp, bind, Except.bind, throw, throwThe, MonadExceptOf.throw]

/-- C1: `getDelOp` fails with `ExitBadArgs` exactly when the argument count is
0 or more than 2, or `delPrefix` and `delFromKey` are both set, or there are two
arguments and `delPrefix` or `delFromKey` is set; in every other case it returns
a key and an option list. -/
theorem getDelOp_badArgs_iff (f : Flags) (args : List GoString) :
    ((∃ err, getDelOp f args = .error ⟨.ExitBadArgs, err⟩) ↔
      (args.length = 0 ∨ args.length > 2 ∨ (f.delPrefix = true ∧ f.delFromKey = true) ∨
        (args.length = 2 ∧ (f.delPrefix = true ∨ f.delFromKey = true)))) ∧
    (¬ (args.length = 0 ∨ args.length > 2 ∨ (f.delPrefix = true ∧ f.delFromKey = true) ∨
        (args.length = 2 ∧ (f.delPrefix = true ∨ f.delFromKey = true))) →
      ∃ key opts, getDelOp f args = .ok (key, opts)) := by
  obtain ⟨p, pv, fk, kc, ex⟩ := f
  match args with
  | [] => simp [getDelOp_eq]
  | [k] => by_cases hk : k = [] <;> cases p <;> cases fk <;> cases pv <;> simp [getDelOp_eq, hk]
  | [k, e] => cases p <;> cases fk <;> cases pv <;> simp [getDelOp_eq]
  | _ :: _ :: _ :: _ => simp [getDelOp_eq]

/-- C3, as stated, fails: for the empty argument list with `delPrefix` set and
every other flag at its default, `getDelOp` does not return the zero byte with
the delete-all option; it ends with `ExitBadArgs`. -/
theorem getDelOp_noArgs_prefix_fails :
    getDelOp ⟨true, false, false, [], false⟩ [] =
        .error ⟨.ExitBadArgs,
          .Errorf "del command needs one argument as key and an optional argument as range_end"⟩ ∧
      getDelOp ⟨true, false, false, [], false⟩ [] ≠ .ok ([0], [.WithFromKey]) := by
  decide

/-- C3, amended: for the single empty argument with `delPrefix` set and every
other flag at its default, `getDelOp` succeeds and returns the zero byte as the
key together with the delete-all option `WithFromKey`; for the empty argument
list it fails with `ExitBadArgs`. -/
theorem getDelOp_emptyKey_prefix_deleteAll :
    getDelOp ⟨true, false, false, [], false⟩ [[]] = .ok ([0], [.WithFromKey]) ∧
      ∃ err, getDelOp ⟨true, false, false, [], false⟩ [] = .error ⟨.ExitBadArgs, err⟩ := by
  exact ⟨by decide, _, rfl⟩

/-- C4: with `delPrefix`, `delPrevKV` and `delFromKey` unset, `getDelOp` returns
`args[0]` unchanged (also when empty), with no option for one argument and with
exactly `WithRange(args[1])` for two arguments. -/
theorem getDelOp_noFlags (kc : GoString) (ex : Bool) (key rangeEnd : GoString) :
    getDelOp ⟨false, false, false, kc, ex⟩ [key] = .ok (key, []) ∧
      getDelOp ⟨false, false, false, kc, ex⟩ [key, rangeEnd] =
        .ok (key, [.WithRange rangeEnd]) := by
  simp [getDelOp_eq]

/-- C5: for a non-empty key as the single argument, with `delPrefix` set and
`delFromKey` unset, `getDelOp` returns the key unchanged and an option list
`[WithPrefix]` (followed by `WithPrevKV` when `delPrevKV` is set): `WithPrefix`
occurs exactly once, `WithFromKey` and `WithRange` do not occur. -/
theorem getDelOp_prefix_nonEmptyKey (f : Flags) (key : GoString) (hkey : key ≠ [])
    (hp : f.delPrefix = true) (hfk : f.delFromKey = false) :
    ∃ opts, getDelOp f [key] = .ok (key, opts) ∧
      opts = .WithPrefix :: (if f.delPrevKV then [.WithPrevKV] else []) ∧
      opts.count .WithPrefix = 1 ∧ .WithFromKey ∉ opts ∧ ∀ e, .WithRange e ∉ opts := by
  obtain ⟨p, pv, fk, kc, ex⟩ := f
  subst hp hfk
  cases pv <;> simp [getDelOp_eq, hkey]

/-- Witness for C5: the key "foo" with `--prefix`. -/
theorem getDelOp_prefix_nonEmptyKey_witness :
    ∃ opts, getDelOp ⟨true, false, false, [], false⟩ [[102, 111, 111]] =
        .ok ([102, 111, 111], opts) ∧
      opts = .WithPrefix ::
        (if (Flags.mk true false false [] false).delPrevKV then [.WithPrevKV] else []) ∧
      opts.count .WithPrefix = 1 ∧ .WithFromKey ∉ opts ∧ ∀ e, .WithRange e ∉ opts :=
  getDelOp_prefix_nonEmptyKey ⟨true, false, false, [], false⟩ [102, 111, 111] (by decide) rfl rfl

/-- C6: for the single empty argument, with `delPrefix` set and `delFromKey`
unset, `getDelOp` returns the zero byte as the key and an option list in which
`WithFromKey` occurs exactly once and `WithPrefix` does not occur. -/
theorem getDelOp_prefix_emptyKey (f : Flags) (hp : f.delPrefix = true)
    (hfk : f.delFromKey = false) :
    ∃ opts, getDelOp f [[]] = .ok ([0], opts) ∧
      opts = .WithFromKey :: (if f.delPrevKV then [.WithPrevKV] else []) ∧
      opts.count .WithFromKey = 1 ∧ .WithPrefix ∉ opts := by
  obtain ⟨p, pv, fk, kc, ex⟩ := f
  subst hp hfk
  cases pv <;> simp [getDelOp_eq]

/-- Witness for C6: `del --prefix --prev-kv ""`. -/
theorem getDelOp_prefix_emptyKey_witness :
    ∃ opts, getDelOp ⟨true, true, false, [], false⟩ [[]] = .ok ([0], opts) ∧
      opts = .WithFromKey ::
        (if (Flags.mk true true false [] false).delPrevKV then [.WithPrevKV] else []) ∧
      opts.count .WithFromKey = 1 ∧ .WithPrefix ∉ opts :=
  getDelOp_prefix_emptyKey ⟨true, true, false, [], false⟩ rfl rfl

/-- C7: for a single argument with `delFromKey` set and `delPrefix` unset,
`getDelOp` returns the key unchanged when it is non-empty and the zero byte when
it is empty, and an option list in which `WithFromKey` occurs exactly once, as
the last element, and neither `WithPrefix` nor `WithRange` occurs. -/
theorem getDelOp_fromKey (f : Flags) (key : GoString) (hfk : f.delFromKey = true)
    (hp : f.delPrefix = false) :
    ∃ opts, getDelOp f [key] = .ok (if key = [] then [0] else key, opts) ∧
      opts.count .WithFromKey = 1 ∧ opts.getLast? = some .WithFromKey ∧
      .WithPrefix ∉ opts ∧ ∀ e, .WithRange e ∉ opts := by
  obtain ⟨p, pv, fk, kc, ex⟩ := f
  subst hp hfk
  by_cases hk : key = [] <;> cases pv <;> simp [getDelOp_eq, hk]

/-- Witness for C7: `del --from-key --prev-kv ""`. -/
theorem getDelOp_fromKey_witness :
    ∃ opts, getDelOp ⟨false, true, true, [], false⟩ [[]] =
        .ok (if ([] : GoString) = [] then [0] else [], opts) ∧
      opts.count .WithFromKey = 1 ∧ opts.getLast? = some .WithFromKey ∧
      .WithPrefix ∉ opts ∧ ∀ e, .WithRange e ∉ opts :=
  getDelOp_fromKey ⟨false, true, true, [], false⟩ [] rfl rfl

/-- C8: when `args`, `delPrefix` and `delFromKey` pass validation, the option
list returned by `getDelOp` holds `WithPrevKV` exactly once when `delPrevKV` is
set and not at all when it is unset, and the key and the options other than
`WithPrevKV` are the same in both cases. -/
theorem getDelOp_prevKV_frame (p fk : Bool) (kc : GoString) (ex : Bool) (args : List GoString)
    (hvalid : ∃ pv r, getDelOp ⟨p, pv, fk, kc, ex⟩ args = .ok r) :
    ∃ key optsOff optsOn,
      getDelOp ⟨p, false, fk, kc, ex⟩ args = .ok (key, optsOff) ∧
      getDelOp ⟨p, true, fk, kc, ex⟩ args = .ok (key, optsOn) ∧
      optsOff.count .WithPrevKV = 0 ∧ optsOn.count .WithPrevKV = 1 ∧
      optsOn.filter (fun o => o != .WithPrevKV) = optsOff ∧
      optsOff.filter (fun o => o != .WithPrevKV) = optsOff := by
  obtain ⟨pv, r, hr⟩ := hvalid
  match args with
  | [] => simp [getDelOp_eq] at hr
  | [k] =>
    by_cases hk : k = [] <;> cases p <;> cases fk <;> cases pv <;>
      simp [getDelOp_eq, hk] at hr ⊢ <;> exact ⟨_, _, ⟨rfl, rfl⟩, _, ⟨rfl, rfl⟩, by simp⟩
  | [k, e] =>
    cases p <;> cases fk <;> cases pv <;> simp [getDelOp_eq] at hr ⊢ <;>
      exact ⟨_, _, ⟨rfl, rfl⟩, _, ⟨rfl, rfl⟩, by simp⟩
  | _ :: _ :: _ :: _ => simp [getDelOp_eq] at hr

/-- Witness for C8: `del alpha omega`, with and without `--prev-kv`. -/
theorem getDelOp_prevKV_frame_witness :
    ∃ key optsOff optsOn,
      getDelOp ⟨false, false, false, [], false⟩ [[97], [122]] = .ok (key, optsOff) ∧
      getDelOp ⟨false, true, false, [], false⟩ [[97], [122]] = .ok (key, optsOn) ∧
      optsOff.count .WithPrevKV = 0 ∧ optsOn.count .WithPrevKV = 1 ∧
      optsOn.filter (fun o => o != .WithPrevKV) = optsOff ∧
      optsOff.filter (fun o => o != .WithPrevKV) = optsOff :=
  getDelOp_prevKV_frame false false [] false [[97], [122]] ⟨false, _, rfl⟩

/-! ## `delCommandFunc` -/

/-- The model of `strings.Contains` decides byte-wise infix containment. -/
theorem stringsContains_iff (s substr : GoString) :
    stringsContains s substr = true ↔ substr <:+: s := by
  induction s with
  | nil =>
    cases substr <;> simp [stringsContains, List.isPrefixOf]
  | cons c s ih =>
    rw [stringsContains, Bool.or_eq_true, ih, List.isPrefixOf_iff_prefix, List.infix_cons_iff]

/-- Filtering with `strings.Contains` selects exactly the matching key-values. -/
theorem filter_stringsContains (substr : GoString) (kvs : List KeyValue) :
    kvs.filter (fun kv => stringsContains kv.Key substr) = matchingKvs substr kvs := by
  unfold matchingKvs
  apply List.filter_congr
  intro kv _
  by_cases h : substr <:+: kv.Key
  · simp [h, (stringsContains_iff kv.Key substr).2 h]
  · have : stringsContains kv.Key substr = false := by
      cases hs : stringsContains kv.Key substr
      · rfl
      · exact absurd ((stringsContains_iff _ _).1 hs) h
    simp [h, this]

/-- Unfolding `matchingKvs` on a non-empty scan result. -/
theorem matchingKvs_cons (substr : GoString) (kv : KeyValue) (kvs : List KeyValue) :
    matchingKvs substr (kv :: kvs) =
      if stringsContains kv.Key substr then kv :: matchingKvs substr kvs
      else matchingKvs substr kvs := by
  rw [← filter_stringsContains, ← filter_stringsContains, List.filter_cons]

/-- The dry-run loop prints one report per matching key-value, touches no store
state and returns. -/
theorem delContainsLoop_dryRun {σ : Type} (c : Client σ) (f : Flags)
    (hex : f.delExecute = false) (kvs : List KeyValue) (s : σ) :
    delContainsLoop c f kvs s =
      ⟨(matchingKvs f.delKeyContains kvs).map (fun kv => .PrintFound kv.Key kv.Key), s, none⟩ := by
  induction kvs with
  | nil => simp [delContainsLoop, matchingKvs]
  | cons kv kvs ih =>
    rw [delContainsLoop, matchingKvs_cons]
    by_cases h : stringsContains kv.Key f.delKeyContains = true
    · simp [h, hex, ih, Outcome.after]
    · simp [h, ih]

/-- A list of "Found Key" lines holds no store call and reports its keys. -/
theorem calls_map_printFound (kvs : List KeyValue) :
    scanCalls (kvs.map (fun kv => Event.PrintFound kv.Key kv.Key)) = [] ∧
      deleteCalls (kvs.map (fun kv => Event.PrintFound kv.Key kv.Key)) = [] ∧
      matchReports (kvs.map (fun kv => Event.PrintFound kv.Key kv.Key)) =
        kvs.map KeyValue.Key := by
  induction kvs with
  | nil => simp [scanCalls, deleteCalls, matchReports]
  | cons kv kvs ih => simp [scanCalls, deleteCalls, matchReports, ih]

/-- The store calls and reports of a sequence of executed matches. -/
theorem calls_executedMatches (kvs : List KeyValue) (resps : List DeleteResponse)
    (hlen : resps.length = kvs.length) :
    scanCalls ((kvs.zip resps).flatMap (fun p => executedMatch p.1 p.2)) = [] ∧
      deleteCalls ((kvs.zip resps).flatMap (fun p => executedMatch p.1 p.2)) =
        kvs.map (fun kv => (kv.Key, [])) ∧
      matchReports ((kvs.zip resps).flatMap (fun p => executedMatch p.1 p.2)) =
        kvs.map KeyValue.Key ∧
      delReports ((kvs.zip resps).flatMap (fun p => executedMatch p.1 p.2)) = resps := by
  induction kvs generalizing resps with
  | nil =>
    cases resps with
    | nil => simp [scanCalls, deleteCalls, matchReports, delReports]
    | cons r rs => simp at hlen
  | cons kv kvs ih =>
    cases resps with
    | nil => simp at hlen
    | cons r rs =>
      obtain ⟨h1, h2, h3, h4⟩ := ih rs (by simpa using hlen)
      have e : ((kv :: kvs).zip (r :: rs)).flatMap (fun p => executedMatch p.1 p.2) =
          executedMatch kv r ++ (kvs.zip rs).flatMap (fun p => executedMatch p.1 p.2) := rfl
      rw [e]
      exact ⟨h1, congrArg (List.cons (kv.Key, [])) h2, congrArg (List.cons kv.Key) h3,
        congrArg (List.cons r) h4⟩

/-- The executing loop, when every delete it issues succeeds, runs one executed
match per matching key-value, in scan order, and returns. -/
theorem delContainsLoop_execute {σ : Type} (c : Client σ) (f : Flags)
    (hex : f.delExecute = true) (kvs : List KeyValue) (s : σ)
    (hdel : ∀ ev ∈ (delContainsLoop c f kvs s).trace, failedDelete ev = false) :
    (delContainsLoop c f kvs s).exit = none ∧
      ∃ resps : List DeleteResponse,
        resps.length = (matchingKvs f.delKeyContains kvs).length ∧
        (delContainsLoop c f kvs s).trace =
          ((matchingKvs f.delKeyContains kvs).zip resps).flatMap
            (fun p => executedMatch p.1 p.2) := by
  induction kvs generalizing s with
  | nil => exact ⟨rfl, [], by simp [matchingKvs], by simp [delContainsLoop, matchingKvs]⟩
  | cons kv kvs ih =>
    rw [matchingKvs_cons]
    by_cases h : stringsContains kv.Key f.delKeyContains = true
    · rcases hd : c.Delete s kv.Key [] with ⟨s1, err | resp⟩
      · exfalso
        have hmem : Event.Delete kv.Key [] (.error err) ∈
            (delContainsLoop c f (kv :: kvs) s).trace := by
          simp [delContainsLoop, h, hex, hd]
        simpa [failedDelete] using hdel _ hmem
      · have hstep : delContainsLoop c f (kv :: kvs) s =
            (delContainsLoop c f kvs s1).after (executedMatch kv resp) := by
          simp [delContainsLoop, h, hex, hd, executedMatch]
        rw [hstep] at hdel ⊢
        obtain ⟨hexit, resps, hlen, htr⟩ := ih s1 (fun ev hmem =>
          hdel ev (by simp [Outcome.after, hmem]))
        refine ⟨by simpa [Outcome.after] using hexit, resp :: resps, by simp [h, hlen], ?_⟩
        simp [Outcome.after, h, htr]
    · have hstep : delContainsLoop c f (kv :: kvs) s = delContainsLoop c f kvs s := by
        simp [delContainsLoop, h]
      rw [hstep] at hdel ⊢
      simpa [h] using ih s hdel

/-- C9: for a non-empty `delKeyContains` with `delExecute` unset, arguments and
flags that pass validation, and any successful scan result, `delCommandFunc`
issues exactly one scan call and no delete call, and prints exactly one match
report per returned key-value whose key contains `delKeyContains` as a byte-wise
substring, in scan order; then it returns. -/
theorem delCommandFunc_dryRun {σ : Type} (c : Client σ) (f : Flags) (args : List GoString)
    (s s' : σ) (resp : GetResponse)
    (hkc : f.delKeyContains ≠ []) (hex : f.delExecute = false)
    (hvalid : ∃ r, getDelOp f args = .ok r)
    (hscan : c.Get s [0] [.WithRange [], .WithFromKey] = (s', .ok resp)) :
    (delCommandFunc c f args s).trace =
        .Get [0] [.WithRange [], .WithFromKey] (.ok resp) ::
          (matchingKvs f.delKeyContains resp.Kvs).map (fun kv => .PrintFound kv.Key kv.Key) ∧
      scanCalls (delCommandFunc c f args s).trace = [([0], [.WithRange [], .WithFromKey])] ∧
      deleteCalls (delCommandFunc c f args s).trace = [] ∧
      matchReports (delCommandFunc c f args s).trace =
        (matchingKvs f.delKeyContains resp.Kvs).map KeyValue.Key ∧
      (delCommandFunc c f args s).exit = none ∧
      (delCommandFunc c f args s).store = s' := by
  obtain ⟨⟨key, opts⟩, hr⟩ := hvalid
  have hpos : f.delKeyContains.length > 0 := List.length_pos.2 hkc
  have hrun : delCommandFunc c f args s =
      ⟨.Get [0] [.WithRange [], .WithFromKey] (.ok resp) ::
        (matchingKvs f.delKeyContains resp.Kvs).map (fun kv => .PrintFound kv.Key kv.Key),
        s', none⟩ := by
    simp [delCommandFunc, hr, hpos, hscan, delContainsLoop_dryRun c f hex, Outcome.after]
  obtain ⟨h1, h2, h3⟩ := calls_map_printFound (matchingKvs f.delKeyContains resp.Kvs)
  rw [hrun]
  simp [scanCalls, deleteCalls, matchReports, h1, h2, h3]

/-- Witness for C9: a dry run for the substring "a" over three stored keys. -/
theorem delCommandFunc_dryRun_witness :
    (delCommandFunc listStore ⟨false, false, false, [97], false⟩ [[107]]
        [⟨[97, 98], []⟩, ⟨[99], []⟩, ⟨[100, 97], [5]⟩]).trace =
      [.Get [0] [.WithRange [], .WithFromKey]
          (.ok ⟨[⟨[97, 98], []⟩, ⟨[99], []⟩, ⟨[100, 97], [5]⟩]⟩),
        .PrintFound [97, 98] [97, 98], .PrintFound [100, 97] [100, 97]] ∧
      scanCalls (delCommandFunc listStore ⟨false, false, false, [97], false⟩ [[107]]
        [⟨[97, 98], []⟩, ⟨[99], []⟩, ⟨[100, 97], [5]⟩]).trace =
          [([0], [.WithRange [], .WithFromKey])] ∧
      deleteCalls (delCommandFunc listStore ⟨false, false, false, [97], false⟩ [[107]]
        [⟨[97, 98], []⟩, ⟨[99], []⟩, ⟨[100, 97], [5]⟩]).trace = [] ∧
      matchReports (delCommandFunc listStore ⟨false, false, false, [97], false⟩ [[107]]
        [⟨[97, 98], []⟩, ⟨[99], []⟩, ⟨[100, 97], [5]⟩]).trace = [[97, 98], [100, 97]] :=
  have h := delCommandFunc_dryRun listStore ⟨false, false, false, [97], false⟩ [[107]]
    [⟨[97, 98], []⟩, ⟨[99], []⟩, ⟨[100, 97], [5]⟩] [⟨[97, 98], []⟩, ⟨[99], []⟩, ⟨[100, 97], [5]⟩]
    ⟨[⟨[97, 98], []⟩, ⟨[99], []⟩, ⟨[100, 97], [5]⟩]⟩ (by decide) rfl ⟨_, rfl⟩ rfl
  ⟨h.1, h.2.1, h.2.2.1, h.2.2.2.1⟩

/-- C10: for a non-empty `delKeyContains` with `delExecute` set, arguments and
flags that pass validation, and any successful scan result, when every delete
call of the run succeeds `delCommandFunc` issues one scan call followed by
exactly one delete call per matching key-value, in scan order: each delete is by
the exact key with no options, each response is displayed right after its
call, and the command returns. -/
theorem delCommandFunc_execute {σ : Type} (c : Client σ) (f : Flags) (args : List GoString)
    (s s' : σ) (resp : GetResponse)
    (hkc : f.delKeyContains ≠ []) (hex : f.delExecute = true)
    (hvalid : ∃ r, getDelOp f args = .ok r)
    (hscan : c.Get s [0] [.WithRange [], .WithFromKey] = (s', .ok resp))
    (hdel : ∀ ev ∈ (delCommandFunc c f args s).trace, failedDelete ev = false) :
    (delCommandFunc c f args s).exit = none ∧
      ∃ resps : List DeleteResponse,
        resps.length = (matchingKvs f.delKeyContains resp.Kvs).length ∧
        (delCommandFunc c f args s).trace =
          .Get [0] [.WithRange [], .WithFromKey] (.ok resp) ::
            ((matchingKvs f.delKeyContains resp.Kvs).zip resps).flatMap
              (fun p => executedMatch p.1 p.2) ∧
        scanCalls (delCommandFunc c f args s).trace = [([0], [.WithRange [], .WithFromKey])] ∧
        deleteCalls (delCommandFunc c f args s).trace =
          (matchingKvs f.delKeyContains resp.Kvs).map (fun kv => (kv.Key, [])) ∧
        matchReports (delCommandFunc c f args s).trace =
          (matchingKvs f.delKeyContains resp.Kvs).map KeyValue.Key ∧
        delReports (delCommandFunc c f args s).trace = resps := by
  obtain ⟨⟨key, opts⟩, hr⟩ := hvalid
  have hpos : f.delKeyContains.length > 0 := List.length_pos.2 hkc
  have hrun : delCommandFunc c f args s =
      (delContainsLoop c f resp.Kvs s').after
        [.Get [0] [.WithRange [], .WithFromKey] (.ok resp)] := by
    simp [delCommandFunc, hr, hpos, hscan]
  rw [hrun] at hdel ⊢
  obtain ⟨hexit, resps, hlen, htr⟩ := delContainsLoop_execute c f hex resp.Kvs s'
    (fun ev hmem => hdel ev (by simp [Outcome.after, hmem]))
  obtain ⟨h1, h2, h3, h4⟩ := calls_executedMatches _ resps hlen
  have htr' : ((delContainsLoop c f resp.Kvs s').after
      [.Get [0] [.WithRange [], .WithFromKey] (.ok resp)]).trace =
        .Get [0] [.WithRange [], .WithFromKey] (.ok resp) ::
          ((matchingKvs f.delKeyContains resp.Kvs).zip resps).flatMap
            (fun p => executedMatch p.1 p.2) := by
    simp [Outcome.after, htr]
  rw [htr']
  exact ⟨by simpa [Outcome.after] using hexit, resps, hlen, rfl,
    congrArg (List.cons (([0] : GoString), [OpOption.WithRange [], OpOption.WithFromKey])) h1,
    h2, h3, h4⟩

/-- Witness for C10: an executing run for the substring "a" over three stored
keys, two of which match. -/
theorem delCommandFunc_execute_witness :
    (delCommandFunc listStore ⟨false, false, false, [97], true⟩ [[107]]
        [⟨[97, 98], []⟩, ⟨[99], []⟩, ⟨[100, 97], [5]⟩]).exit = none ∧
      ∃ resps : List DeleteResponse,
        resps.length = (matchingKvs (Flags.mk false false false [97] true).delKeyContains
          (GetResponse.mk [⟨[97, 98], []⟩, ⟨[99], []⟩, ⟨[100, 97], [5]⟩]).Kvs).length ∧
        (delCommandFunc listStore ⟨false, false, false, [97], true⟩ [[107]]
            [⟨[97, 98], []⟩, ⟨[99], []⟩, ⟨[100, 97], [5]⟩]).trace =
          .Get [0] [.WithRange [], .WithFromKey]
              (.ok ⟨[⟨[97, 98], []⟩, ⟨[99], []⟩, ⟨[100, 97], [5]⟩]⟩) ::
            ((matchingKvs (Flags.mk false false false [97] true).delKeyContains
              (GetResponse.mk [⟨[97, 98], []⟩, ⟨[99], []⟩, ⟨[100, 97], [5]⟩]).Kvs).zip
                resps).flatMap (fun p => executedMatch p.1 p.2) ∧
        scanCalls (delCommandFunc listStore ⟨false, false, false, [97], true⟩ [[107]]
            [⟨[97, 98], []⟩, ⟨[99], []⟩, ⟨[100, 97], [5]⟩]).trace =
          [([0], [.WithRange [], .WithFromKey])] ∧
        deleteCalls (delCommandFunc listStore ⟨false, false, false, [97], true⟩ [[107]]
            [⟨[97, 98], []⟩, ⟨[99], []⟩, ⟨[100, 97], [5]⟩]).trace =
          (matchingKvs (Flags.mk false false false [97] true).delKeyContains
            (GetResponse.mk [⟨[97, 98], []⟩, ⟨[99], []⟩, ⟨[100, 97], [5]⟩]).Kvs).map
              (fun kv => (kv.Key, [])) ∧
        matchReports (delCommandFunc listStore ⟨false, false, false, [97], true⟩ [[107]]
            [⟨[97, 98], []⟩, ⟨[99], []⟩, ⟨[100, 97], [5]⟩]).trace =
          (matchingKvs (Flags.mk false false false [97] true).delKeyContains
            (GetResponse.mk [⟨[97, 98], []⟩, ⟨[99], []⟩, ⟨[100, 97], [5]⟩]).Kvs).map
              KeyValue.Key ∧
        delReports (delCommandFunc listStore ⟨false, false, false, [97], true⟩ [[107]]
            [⟨[97, 98], []⟩, ⟨[99], []⟩, ⟨[100, 97], [5]⟩]).trace = resps :=
  delCommandFunc_execute listStore ⟨false, false, false, [97], true⟩ [[107]]
    [⟨[97, 98], []⟩, ⟨[99], []⟩, ⟨[100, 97], [5]⟩] [⟨[97, 98], []⟩, ⟨[99], []⟩, ⟨[100, 97], [5]⟩]
    ⟨[⟨[97, 98], []⟩, ⟨[99], []⟩, ⟨[100, 97], [5]⟩]⟩ (by decide) rfl ⟨_, rfl⟩ rfl (by decide)

/-- The loop reads only `delKeyContains` and `delExecute` of the flags. -/
theorem delContainsLoop_flags {σ : Type} (c : Client σ) (f g : Flags)
    (hkc : g.delKeyContains = f.delKeyContains) (hex : g.delExecute = f.delExecute)
    (kvs : List KeyValue) (s : σ) :
    delContainsLoop c f kvs s = delContainsLoop c g kvs s := by
  induction kvs generalizing s with
  | nil => rfl
  | cons kv kvs ih => simp only [delContainsLoop, hkc, hex, ih]

/-- The loop issues no scan call. -/
theorem delContainsLoop_scanCalls {σ : Type} (c : Client σ) (f : Flags)
    (kvs : List KeyValue) (s : σ) :
    scanCalls (delContainsLoop c f kvs s).trace = [] := by
  induction kvs generalizing s with
  | nil => rfl
  | cons kv kvs ih =>
    rw [delContainsLoop]
    by_cases h : stringsContains kv.Key f.delKeyContains = true
    · cases hex : f.delExecute
      · simpa [h, hex, Outcome.after, scanCalls] using ih s
      · rcases hd : c.Delete s kv.Key [] with ⟨s1, err | resp⟩
        · simp [h, hex, hd, scanCalls]
        · simpa [h, hex, hd, Outcome.after, scanCalls] using ih s1
    · simpa [h] using ih s

/-- C2, as stated, fails: with `delKeyContains` set to "a", the empty argument
list does not reach the scan. The run ends with `ExitBadArgs` before any store
call, while the same flags with the argument "k" scan the store and report the
matching key, so the two runs differ. -/
theorem delCommandFunc_keyContains_noArgs_differs :
    (delCommandFunc listStore ⟨false, false, false, [97], false⟩ [] [⟨[97], []⟩]).trace = [] ∧
      (delCommandFunc listStore ⟨false, false, false, [97], false⟩ [] [⟨[97], []⟩]).exit =
        some ⟨.ExitBadArgs,
          .Errorf "del command needs one argument as key and an optional argument as range_end"⟩ ∧
      (delCommandFunc listStore ⟨false, false, false, [97], false⟩ [[107]] [⟨[97], []⟩]).trace =
        [.Get [0] [.WithRange [], .WithFromKey] (.ok ⟨[⟨[97], []⟩]⟩), .PrintFound [97] [97]] ∧
      delCommandFunc listStore ⟨false, false, false, [97], false⟩ [] [⟨[97], []⟩] ≠
        delCommandFunc listStore ⟨false, false, false, [97], false⟩ [[107]] [⟨[97], []⟩] := by
  decide

/-- C2, amended: for a non-empty `delKeyContains`, two invocations whose
arguments and `delPrefix`/`delPrevKV`/`delFromKey` flags both pass the validation
of `getDelOp`, and that agree on `delKeyContains` and `delExecute`, run the
substring scan path with the same result: each issues exactly one scan call,
the same one, and both produce the same events, final store state and exit. -/
theorem delCommandFunc_keyContains_valid_args_ignored {σ : Type} (c : Client σ)
    (f g : Flags) (args args' : List GoString) (s : σ)
    (hne : f.delKeyContains ≠ [])
    (hkc : g.delKeyContains = f.delKeyContains) (hex : g.delExecute = f.delExecute)
    (hvalid : ∃ r, getDelOp f args = .ok r) (hvalid' : ∃ r, getDelOp g args' = .ok r) :
    delCommandFunc c f args s = delCommandFunc c g args' s ∧
      scanCalls (delCommandFunc c f args s).trace = [([0], [.WithRange [], .WithFromKey])] := by
  obtain ⟨⟨key, opts⟩, hr⟩ := hvalid
  obtain ⟨⟨key', opts'⟩, hr'⟩ := hvalid'
  have hpos : f.delKeyContains.length > 0 := List.length_pos.2 hne
  have hpos' : g.delKeyContains.length > 0 := hkc ▸ hpos
  rcases hd : c.Get s [0] [.WithRange [], .WithFromKey] with ⟨s1, err | resp⟩
  · simp [delCommandFunc, hr, hr', hpos, hpos', hd, scanCalls]
  · have h := delContainsLoop_scanCalls c g resp.Kvs s1
    simp [delCommandFunc, hr, hr', hpos, hpos', hd, scanCalls, Outcome.after, h,
      delContainsLoop_flags c f g hkc hex]

/-- Witness for C2 (amended): `del --key-contains=a k` and
`del --key-contains=a --prefix --prev-kv x` on the same store. -/
theorem delCommandFunc_keyContains_valid_args_ignored_witness :
    delCommandFunc listStore ⟨false, false, false, [97], false⟩ [[107]] [⟨[97], []⟩] =
        delCommandFunc listStore ⟨true, true, false, [97], false⟩ [[120]] [⟨[97], []⟩] ∧
      scanCalls (delCommandFunc listStore ⟨false, false, false, [97], false⟩ [[107]]
        [⟨[97], []⟩]).trace = [([0], [.WithRange [], .WithFromKey])] :=
  delCommandFunc_keyContains_valid_args_ignored listStore ⟨false, false, false, [97], false⟩
    ⟨true, true, false, [97], false⟩ [[107]] [[120]] [⟨[97], []⟩] (by decide) rfl rfl
    ⟨_, rfl⟩ ⟨_, rfl⟩

/-- The loop either returns or exits with `ExitError`. -/
theorem delContainsLoop_exit {σ : Type} (c : Client σ) (f : Flags)
    (kvs : List KeyValue) (s : σ) :
    (delContainsLoop c f kvs s).exit = none ∨
      ∃ err, (delContainsLoop c f kvs s).exit = some ⟨.ExitError, err⟩ := by
  induction kvs generalizing s with
  | nil => exact Or.inl rfl
  | cons kv kvs ih =>
    rw [delContainsLoop]
    by_cases h : stringsContains kv.Key f.delKeyContains = true
    · cases hex : f.delExecute
      · simpa [h, hex, Outcome.after] using ih s
      · rcases hd : c.Delete s kv.Key [] with ⟨s1, err | resp⟩
        · simp [h, hex, hd]
        · simpa [h, hex, hd, Outcome.after] using ih s1
    · simpa [h] using ih s

/-- Once `getDelOp` has succeeded, the command either returns or exits with
`ExitError`. -/
theorem delCommandFunc_exit_of_valid {σ : Type} (c : Client σ) (f : Flags)
    (args : List GoString) (s : σ) (r : GoString × List OpOption)
    (hr : getDelOp f args = .ok r) :
    (delCommandFunc c f args s).exit = none ∨
      ∃ err, (delCommandFunc c f args s).exit = some ⟨.ExitError, err⟩ := by
  obtain ⟨key, opts⟩ := r
  by_cases hpos : f.delKeyContains.length > 0
  · rcases hd : c.Get s [0] [.WithRange [], .WithFromKey] with ⟨s1, err | resp⟩
    · simp [delCommandFunc, hr, hpos, hd]
    · simpa [delCommandFunc, hr, hpos, hd, Outcome.after] using
        delContainsLoop_exit c f resp.Kvs s1
  · rcases hd : c.Delete s key opts with ⟨s1, err | resp⟩
    · simp [delCommandFunc, hr, hpos, hd]
    · simp [delCommandFunc, hr, hpos, hd]

/-- C12: every run of `delCommandFunc` that ends with `ExitBadArgs`, whatever
`delKeyContains` is, has an empty trace: `getDelOp` itself failed, no scan call
and no delete call was issued, and the store is in its initial state. -/
theorem delCommandFunc_badArgs_no_storeCall {σ : Type} (c : Client σ) (f : Flags)
    (args : List GoString) (s : σ) (err : GoError)
    (hbad : (delCommandFunc c f args s).exit = some ⟨.ExitBadArgs, err⟩) :
    getDelOp f args = .error ⟨.ExitBadArgs, err⟩ ∧
      (delCommandFunc c f args s).trace = [] ∧
      scanCalls (delCommandFunc c f args s).trace = [] ∧
      deleteCalls (delCommandFunc c f args s).trace = [] ∧
      (delCommandFunc c f args s).store = s := by
  cases hr : getDelOp f args with
  | error e =>
    have hrun : delCommandFunc c f args s = ⟨[], s, some e⟩ := by simp [delCommandFunc, hr]
    rw [hrun] at hbad ⊢
    simp only [Option.some.injEq] at hbad
    subst hbad
    exact ⟨rfl, rfl, rfl, rfl, rfl⟩
  | ok r =>
    exfalso
    rcases delCommandFunc_exit_of_valid c f args s r hr with h | ⟨e, h⟩
    · rw [h] at hbad
      cases hbad
    · rw [h] at hbad
      cases hbad

/-- Witness for C12: no argument in substring mode, and `--prefix` with
`--from-key` in normal mode. -/
theorem delCommandFunc_badArgs_no_storeCall_witness :
    (getDelOp ⟨false, false, false, [97], true⟩ [] =
        .error ⟨.ExitBadArgs,
          .Errorf "del command needs one argument as key and an optional argument as range_end"⟩ ∧
      (delCommandFunc listStore ⟨false, false, false, [97], true⟩ [] [⟨[97], []⟩]).trace = [] ∧
      scanCalls (delCommandFunc listStore ⟨false, false, false, [97], true⟩ []
        [⟨[97], []⟩]).trace = [] ∧
      deleteCalls (delCommandFunc listStore ⟨false, false, false, [97], true⟩ []
        [⟨[97], []⟩]).trace = [] ∧
      (delCommandFunc listStore ⟨false, false, false, [97], true⟩ [] [⟨[97], []⟩]).store =
        [⟨[97], []⟩]) ∧
    (getDelOp ⟨true, false, true, [], false⟩ [[97]] =
        .error ⟨.ExitBadArgs,
          .Errorf "`--prefix` and `--from-key` cannot be set at the same time, choose one"⟩ ∧
      (delCommandFunc listStore ⟨true, false, true, [], false⟩ [[97]] [⟨[97], []⟩]).trace = [] ∧
      scanCalls (delCommandFunc listStore ⟨true, false, true, [], false⟩ [[97]]
        [⟨[97], []⟩]).trace = [] ∧
      deleteCalls (delCommandFunc listStore ⟨true, false, true, [], false⟩ [[97]]
        [⟨[97], []⟩]).trace = [] ∧
      (delCommandFunc listStore ⟨true, false, true, [], false⟩ [[97]] [⟨[97], []⟩]).store =
        [⟨[97], []⟩]) :=
  ⟨delCommandFunc_badArgs_no_storeCall listStore ⟨false, false, false, [97], true⟩ []
      [⟨[97], []⟩] _ rfl,
    delCommandFunc_badArgs_no_storeCall listStore ⟨true, false, true, [], false⟩ [[97]]
      [⟨[97], []⟩] _ rfl⟩

/-- C13: for an empty `delKeyContains` and arguments and flags that pass
validation, `delCommandFunc` issues no scan call and exactly one delete call,
with the key and options returned by `getDelOp`; when the call succeeds its
response is displayed and the command returns, and when it fails the command
exits with `ExitError` and the store's error, unchanged. -/
theorem delCommandFunc_normal {σ : Type} (c : Client σ) (f : Flags) (args : List GoString)
    (s : σ) (key : GoString) (opts : List OpOption)
    (hkc : f.delKeyContains = []) (hvalid : getDelOp f args = .ok (key, opts)) :
    scanCalls (delCommandFunc c f args s).trace = [] ∧
      deleteCalls (delCommandFunc c f args s).trace = [(key, opts)] ∧
      (∀ s' resp, c.Delete s key opts = (s', .ok resp) →
        delCommandFunc c f args s =
          ⟨[.Delete key opts (.ok resp), .DisplayDel resp], s', none⟩) ∧
      (∀ s' err, c.Delete s key opts = (s', .error err) →
        delCommandFunc c f args s =
          ⟨[.Delete key opts (.error err)], s', some ⟨.ExitError, err⟩⟩) := by
  have hpos : ¬ f.delKeyContains.length > 0 := by simp [hkc]
  rcases hd : c.Delete s key opts with ⟨s1, err | resp⟩
  · simp [delCommandFunc, hvalid, hpos, hd, scanCalls, deleteCalls]
  · simp [delCommandFunc, hvalid, hpos, hd, scanCalls, deleteCalls]

/-- Witness for C13: `del --prev-kv a c` on a store where the call succeeds, and
on a store where it fails. -/
theorem delCommandFunc_normal_witness :
    (scanCalls (delCommandFunc listStore ⟨false, true, false, [], false⟩ [[97], [99]]
        [⟨[97], []⟩, ⟨[98], []⟩]).trace = [] ∧
      deleteCalls (delCommandFunc listStore ⟨false, true, false, [], false⟩ [[97], [99]]
        [⟨[97], []⟩, ⟨[98], []⟩]).trace = [([97], [.WithRange [99], .WithPrevKV])] ∧
      delCommandFunc listStore ⟨false, true, false, [], false⟩ [[97], [99]]
          [⟨[97], []⟩, ⟨[98], []⟩] =
        ⟨[.Delete [97] [.WithRange [99], .WithPrevKV] (.ok ⟨1, []⟩), .DisplayDel ⟨1, []⟩],
          [⟨[98], []⟩], none⟩) ∧
    delCommandFunc faultyStore ⟨false, true, false, [], false⟩ [[97], [99]]
        ([⟨[97], []⟩], 0) =
      ⟨[.Delete [97] [.WithRange [99], .WithPrevKV] (.error (.Store 1))], ([⟨[97], []⟩], 0),
        some ⟨.ExitError, .Store 1⟩⟩ :=
  have h := delCommandFunc_normal listStore ⟨false, true, false, [], false⟩ [[97], [99]]
    [⟨[97], []⟩, ⟨[98], []⟩] [97] [.WithRange [99], .WithPrevKV] rfl rfl
  have h' := delCommandFunc_normal faultyStore ⟨false, true, false, [], false⟩ [[97], [99]]
    ([⟨[97], []⟩], 0) [97] [.WithRange [99], .WithPrevKV] rfl rfl
  ⟨⟨h.1, h.2.1, h.2.2.1 _ _ rfl⟩, h'.2.2.2 _ _ rfl⟩

/-- An element of `(xs ++ ys).dropLast` is in `xs` or in `ys.dropLast`. -/
theorem mem_dropLast_append {α : Type} (a : α) (xs ys : List α)
    (h : a ∈ (xs ++ ys).dropLast) : a ∈ xs ∨ a ∈ ys.dropLast := by
  cases ys with
  | nil =>
    rw [List.append_nil] at h
    exact Or.inl (List.mem_of_mem_dropLast h)
  | cons y ys =>
    rw [List.dropLast_append_of_ne_nil xs (by simp)] at h
    exact List.mem_append.1 h

/-- No event of an executed match is a failed call. -/
theorem callError_executedMatch (kv : KeyValue) (resp : DeleteResponse) (ev : Event)
    (h : ev ∈ executedMatch kv resp) : callError ev = none := by
  simp only [executedMatch, List.mem_cons, List.mem_singleton, List.not_mem_nil, or_false] at h
  rcases h with rfl | rfl | rfl | rfl <;> rfl

/-- One step of the executing loop on a matching key whose delete succeeds. -/
theorem delContainsLoop_cons_ok {σ : Type} (c : Client σ) (f : Flags) (kv : KeyValue)
    (kvs : List KeyValue) (s s1 : σ) (resp : DeleteResponse)
    (h : stringsContains kv.Key f.delKeyContains = true) (hex : f.delExecute = true)
    (hd : c.Delete s kv.Key [] = (s1, .ok resp)) :
    delContainsLoop c f (kv :: kvs) s =
      (delContainsLoop c f kvs s1).after (executedMatch kv resp) := by
  simp [delContainsLoop, h, hex, hd, executedMatch]

/-- One step of the executing loop on a matching key whose delete fails. -/
theorem delContainsLoop_cons_error {σ : Type} (c : Client σ) (f : Flags) (kv : KeyValue)
    (kvs : List KeyValue) (s s1 : σ) (err : GoError)
    (h : stringsContains kv.Key f.delKeyContains = true) (hex : f.delExecute = true)
    (hd : c.Delete s kv.Key [] = (s1, .error err)) :
    delContainsLoop c f (kv :: kvs) s =
      ⟨[.PrintFound kv.Key kv.Key, .PrintDeleting, .Delete kv.Key [] (.error err)], s1,
        some ⟨.ExitError, err⟩⟩ := by
  simp [delContainsLoop, h, hex, hd]

/-- One step of the dry-run loop on a matching key. -/
theorem delContainsLoop_cons_dry {σ : Type} (c : Client σ) (f : Flags) (kv : KeyValue)
    (kvs : List KeyValue) (s : σ)
    (h : stringsContains kv.Key f.delKeyContains = true) (hex : f.delExecute = false) :
    delContainsLoop c f (kv :: kvs) s =
      (delContainsLoop c f kvs s).after [.PrintFound kv.Key kv.Key] := by
  simp [delContainsLoop, h, hex]

/-- One step of the loop on a key that does not match. -/
theorem delContainsLoop_cons_skip {σ : Type} (c : Client σ) (f : Flags) (kv : KeyValue)
    (kvs : List KeyValue) (s : σ)
    (h : ¬ stringsContains kv.Key f.delKeyContains = true) :
    delContainsLoop c f (kv :: kvs) s = delContainsLoop c f kvs s := by
  simp [delContainsLoop, h]

/-- In the loop only the last event can be a failed store call. -/
theorem delContainsLoop_failure_last {σ : Type} (c : Client σ) (f : Flags)
    (kvs : List KeyValue) (s : σ) :
    ∀ ev ∈ (delContainsLoop c f kvs s).trace.dropLast, callError ev = none := by
  induction kvs generalizing s with
  | nil => intro ev h; simp [delContainsLoop] at h
  | cons kv kvs ih =>
    intro ev hev
    by_cases h : stringsContains kv.Key f.delKeyContains = true
    · cases hex : f.delExecute
      · rw [delContainsLoop_cons_dry c f kv kvs s h hex] at hev
        rcases mem_dropLast_append _ _ _ hev with h1 | h1
        · simp only [List.mem_singleton] at h1
          subst h1
          rfl
        · exact ih s ev h1
      · rcases hd : c.Delete s kv.Key [] with ⟨s1, err | resp⟩
        · rw [delContainsLoop_cons_error c f kv kvs s s1 err h hex hd] at hev
          simp only [List.dropLast, List.mem_cons, List.mem_singleton, List.not_mem_nil,
            or_false] at hev
          rcases hev with rfl | rfl <;> rfl
        · rw [delContainsLoop_cons_ok c f kv kvs s s1 resp h hex hd] at hev
          rcases mem_dropLast_append _ _ _ hev with h1 | h1
          · exact callError_executedMatch kv resp ev h1
          · exact ih s1 ev h1
    · rw [delContainsLoop_cons_skip c f kv kvs s h] at hev
      exact ih s ev hev

/-- In the loop a failed store call ends the run with `ExitError` and the
error that the call returned. -/
theorem delContainsLoop_failure_exit {σ : Type} (c : Client σ) (f : Flags)
    (kvs : List KeyValue) (s : σ) :
    ∀ ev ∈ (delContainsLoop c f kvs s).trace, ∀ err, callError ev = some err →
      (delContainsLoop c f kvs s).exit = some ⟨.ExitError, err⟩ := by
  induction kvs generalizing s with
  | nil => intro ev h; simp [delContainsLoop] at h
  | cons kv kvs ih =>
    intro ev hev err herr
    by_cases h : stringsContains kv.Key f.delKeyContains = true
    · cases hex : f.delExecute
      · rw [delContainsLoop_cons_dry c f kv kvs s h hex] at hev ⊢
        rcases List.mem_append.1 hev with h1 | h1
        · simp only [List.mem_singleton] at h1
          subst h1
          cases herr
        · exact ih s ev h1 err herr
      · rcases hd : c.Delete s kv.Key [] with ⟨s1, e | resp⟩
        · rw [delContainsLoop_cons_error c f kv kvs s s1 e h hex hd] at hev ⊢
          simp only [List.mem_cons, List.mem_singleton, List.not_mem_nil, or_false] at hev
          rcases hev with rfl | rfl | rfl
          · cases herr
          · cases herr
          · cases herr
            rfl
        · rw [delContainsLoop_cons_ok c f kv kvs s s1 resp h hex hd] at hev ⊢
          rcases List.mem_append.1 hev with h1 | h1
          · rw [callError_executedMatch kv resp ev h1] at herr
            cases herr
          · exact ih s1 ev h1 err herr
    · rw [delContainsLoop_cons_skip c f kv kvs s h] at hev ⊢
      exact ih s ev hev err herr

/-- When the delete for match number `n` (counted from 0) fails in the executing
loop, the delete calls issued are those for matches `0..n`, in scan order, and
the loop exits with the error of that call. -/
theorem delContainsLoop_failure_deletes {σ : Type} (c : Client σ) (f : Flags)
    (hex : f.delExecute = true) (kvs : List KeyValue) (s : σ) (n : Nat) (err : GoError)
    (hfail : (deleteResults (delContainsLoop c f kvs s).trace)[n]? = some (.error err)) :
    n < (matchingKvs f.delKeyContains kvs).length ∧
      deleteCalls (delContainsLoop c f kvs s).trace =
        ((matchingKvs f.delKeyContains kvs).take (n + 1)).map (fun kv => (kv.Key, [])) ∧
      (delContainsLoop c f kvs s).exit = some ⟨.ExitError, err⟩ := by
  induction kvs generalizing s n with
  | nil => simp [delContainsLoop, deleteResults] at hfail
  | cons kv kvs ih =>
    rw [matchingKvs_cons]
    by_cases h : stringsContains kv.Key f.delKeyContains = true
    · rw [if_pos h]
      rcases hd : c.Delete s kv.Key [] with ⟨s1, e | resp⟩
      · rw [delContainsLoop_cons_error c f kv kvs s s1 e h hex hd] at hfail ⊢
        cases n with
        | zero =>
          simp only [deleteResults, List.getElem?_cons_zero, Option.some.injEq,
            Except.error.injEq] at hfail
          subst hfail
          simp [deleteCalls]
        | succ m => simp [deleteResults] at hfail
      · rw [delContainsLoop_cons_ok c f kv kvs s s1 resp h hex hd] at hfail ⊢
        have hres : deleteResults ((delContainsLoop c f kvs s1).after
            (executedMatch kv resp)).trace =
              .ok resp :: deleteResults (delContainsLoop c f kvs s1).trace := rfl
        have hcalls : deleteCalls ((delContainsLoop c f kvs s1).after
            (executedMatch kv resp)).trace =
              (kv.Key, []) :: deleteCalls (delContainsLoop c f kvs s1).trace := rfl
        rw [hres] at hfail
        rw [hcalls]
        cases n with
        | zero => simp at hfail
        | succ m =>
          rw [List.getElem?_cons_succ] at hfail
          obtain ⟨h1, h2, h3⟩ := ih s1 m hfail
          refine ⟨by simpa using h1, ?_, by simpa [Outcome.after] using h3⟩
          rw [h2, List.take_succ_cons, List.map_cons]
    · rw [if_neg h]
      rw [delContainsLoop_cons_skip c f kv kvs s h] at hfail ⊢
      exact ih s n hfail

/-- The run when `getDelOp` fails: no event, and the exit of `getDelOp`. -/
theorem delCommandFunc_of_invalid {σ : Type} (c : Client σ) (f : Flags)
    (args : List GoString) (s : σ) (e : Exit) (hr : getDelOp f args = .error e) :
    delCommandFunc c f args s = ⟨[], s, some e⟩ := by
  simp [delCommandFunc, hr]

/-- The run in substring mode when the scan succeeds. -/
theorem delCommandFunc_scan_ok {σ : Type} (c : Client σ) (f : Flags)
    (args : List GoString) (s s' : σ) (resp : GetResponse)
    (hkc : f.delKeyContains ≠ []) (hvalid : ∃ r, getDelOp f args = .ok r)
    (hscan : c.Get s [0] [.WithRange [], .WithFromKey] = (s', .ok resp)) :
    delCommandFunc c f args s =
      (delContainsLoop c f resp.Kvs s').after
        [.Get [0] [.WithRange [], .WithFromKey] (.ok resp)] := by
  obtain ⟨⟨key, opts⟩, hr⟩ := hvalid
  have hpos : f.delKeyContains.length > 0 := List.length_pos.2 hkc
  simp [delCommandFunc, hr, hpos, hscan]

/-- The run in substring mode when the scan fails. -/
theorem delCommandFunc_scan_error {σ : Type} (c : Client σ) (f : Flags)
    (args : List GoString) (s s' : σ) (err : GoError)
    (hkc : f.delKeyContains ≠ []) (hvalid : ∃ r, getDelOp f args = .ok r)
    (hscan : c.Get s [0] [.WithRange [], .WithFromKey] = (s', .error err)) :
    delCommandFunc c f args s =
      ⟨[.Get [0] [.WithRange [], .WithFromKey] (.error err)], s', some ⟨.ExitError, err⟩⟩ := by
  obtain ⟨⟨key, opts⟩, hr⟩ := hvalid
  have hpos : f.delKeyContains.length > 0 := List.length_pos.2 hkc
  simp [delCommandFunc, hr, hpos, hscan]

/-- In every run only the last event can be a failed store call. -/
theorem delCommandFunc_failure_last {σ : Type} (c : Client σ) (f : Flags)
    (args : List GoString) (s : σ) :
    ∀ ev ∈ (delCommandFunc c f args s).trace.dropLast, callError ev = none := by
  intro ev hev
  cases hr : getDelOp f args with
  | error e =>
    rw [delCommandFunc_of_invalid c f args s e hr] at hev
    simp at hev
  | ok r =>
    obtain ⟨key, opts⟩ := r
    by_cases hkc : f.delKeyContains = []
    · have hpos : ¬ f.delKeyContains.length > 0 := by simp [hkc]
      rcases hd : c.Delete s key opts with ⟨s1, err | resp⟩
      · simp [delCommandFunc, hr, hpos, hd] at hev
      · simp [delCommandFunc, hr, hpos, hd] at hev
        subst hev
        rfl
    · rcases hd : c.Get s [0] [.WithRange [], .WithFromKey] with ⟨s1, err | resp⟩
      · rw [delCommandFunc_scan_error c f args s s1 err hkc ⟨_, hr⟩ hd] at hev
        simp at hev
      · rw [delCommandFunc_scan_ok c f args s s1 resp hkc ⟨_, hr⟩ hd] at hev
        rcases mem_dropLast_append _ _ _ hev with h1 | h1
        · simp only [List.mem_singleton] at h1
          subst h1
          rfl
        · exact delContainsLoop_failure_last c f resp.Kvs s1 ev h1

/-- In every run a failed store call ends the command with `ExitError` and the
error that the call returned. -/
theorem delCommandFunc_failure_exit {σ : Type} (c : Client σ) (f : Flags)
    (args : List GoString) (s : σ) :
    ∀ ev ∈ (delCommandFunc c f args s).trace, ∀ err, callError ev = some err →
      (delCommandFunc c f args s).exit = some ⟨.ExitError, err⟩ := by
  intro ev hev err herr
  cases hr : getDelOp f args with
  | error e =>
    rw [delCommandFunc_of_invalid c f args s e hr] at hev
    simp at hev
  | ok r =>
    obtain ⟨key, opts⟩ := r
    by_cases hkc : f.delKeyContains = []
    · have hpos : ¬ f.delKeyContains.length > 0 := by simp [hkc]
      rcases hd : c.Delete s key opts with ⟨s1, e | resp⟩
      · simp [delCommandFunc, hr, hpos, hd] at hev ⊢
        subst hev
        simpa [callError] using herr
      · simp [delCommandFunc, hr, hpos, hd] at hev
        rcases hev with rfl | rfl <;> cases herr
    · rcases hd : c.Get s [0] [.WithRange [], .WithFromKey] with ⟨s1, e | resp⟩
      · rw [delCommandFunc_scan_error c f args s s1 e hkc ⟨_, hr⟩ hd] at hev ⊢
        simp only [List.mem_singleton] at hev
        subst hev
        cases herr
        rfl
      · rw [delCommandFunc_scan_ok c f args s s1 resp hkc ⟨_, hr⟩ hd] at hev ⊢
        rcases List.mem_append.1 hev with h1 | h1
        · simp only [List.mem_singleton] at h1
          subst h1
          cases herr
        · exact delContainsLoop_failure_exit c f resp.Kvs s1 ev h1 err herr

/-- C11: a store failure ends the run at once. In every run of `delCommandFunc`
no event follows a failed store call, and the command exits with `ExitError`
and the error of that call. In substring mode, when the scan fails the trace is
that call alone, with no delete call and no match report; when, with
`delExecute` set, the delete for match number `n` (counted from 0) fails, the
delete calls issued are exactly those for matches `0..n` in scan order, each by
the exact key with no options, and none is issued for a later match. -/
theorem delCommandFunc_store_failure {σ : Type} (c : Client σ) (f : Flags)
    (args : List GoString) (s : σ) :
    (∀ ev ∈ (delCommandFunc c f args s).trace.dropLast, callError ev = none) ∧
      (∀ ev ∈ (delCommandFunc c f args s).trace, ∀ err, callError ev = some err →
        (delCommandFunc c f args s).exit = some ⟨.ExitError, err⟩) ∧
      (∀ s' err, f.delKeyContains ≠ [] → (∃ r, getDelOp f args = .ok r) →
        c.Get s [0] [.WithRange [], .WithFromKey] = (s', .error err) →
        delCommandFunc c f args s =
            ⟨[.Get [0] [.WithRange [], .WithFromKey] (.error err)], s',
              some ⟨.ExitError, err⟩⟩ ∧
          deleteCalls (delCommandFunc c f args s).trace = [] ∧
          matchReports (delCommandFunc c f args s).trace = []) ∧
      (∀ s' resp n err, f.delKeyContains ≠ [] → f.delExecute = true →
        (∃ r, getDelOp f args = .ok r) →
        c.Get s [0] [.WithRange [], .WithFromKey] = (s', .ok resp) →
        (deleteResults (delCommandFunc c f args s).trace)[n]? = some (.error err) →
        n < (matchingKvs f.delKeyContains resp.Kvs).length ∧
          deleteCalls (delCommandFunc c f args s).trace =
            ((matchingKvs f.delKeyContains resp.Kvs).take (n + 1)).map
              (fun kv => (kv.Key, [])) ∧
          (delCommandFunc c f args s).exit = some ⟨.ExitError, err⟩) := by
  refine ⟨delCommandFunc_failure_last c f args s, delCommandFunc_failure_exit c f args s,
    ?_, ?_⟩
  · intro s' err hkc hvalid hscan
    rw [delCommandFunc_scan_error c f args s s' err hkc hvalid hscan]
    exact ⟨rfl, rfl, rfl⟩
  · intro s' resp n err hkc hex hvalid hscan hfail
    rw [delCommandFunc_scan_ok c f args s s' resp hkc hvalid hscan] at hfail ⊢
    have hres : deleteResults ((delContainsLoop c f resp.Kvs s').after
        [.Get [0] [.WithRange [], .WithFromKey] (.ok resp)]).trace =
          deleteResults (delContainsLoop c f resp.Kvs s').trace := rfl
    rw [hres] at hfail
    obtain ⟨h1, h2, h3⟩ := delContainsLoop_failure_deletes c f hex resp.Kvs s' n err hfail
    exact ⟨h1, h2, h3⟩

/-- Witness for C11: on a store whose first call fails the scan is the only
event; on a store whose third call fails, with three matching keys, the second
delete is the last event and the third key is never deleted. -/
theorem delCommandFunc_store_failure_witness :
    (delCommandFunc faultyStore ⟨false, false, false, [97], true⟩ [[107]]
        ([⟨[97], []⟩, ⟨[97, 98], []⟩, ⟨[99, 97], []⟩], 0) =
          ⟨[.Get [0] [.WithRange [], .WithFromKey] (.error (.Store 1))],
            ([⟨[97], []⟩, ⟨[97, 98], []⟩, ⟨[99, 97], []⟩], 0),
            some ⟨.ExitError, .Store 1⟩⟩ ∧
      deleteCalls (delCommandFunc faultyStore ⟨false, false, false, [97], true⟩ [[107]]
        ([⟨[97], []⟩, ⟨[97, 98], []⟩, ⟨[99, 97], []⟩], 0)).trace = [] ∧
      matchReports (delCommandFunc faultyStore ⟨false, false, false, [97], true⟩ [[107]]
        ([⟨[97], []⟩, ⟨[97, 98], []⟩, ⟨[99, 97], []⟩], 0)).trace = []) ∧
    (1 < (matchingKvs (Flags.mk false false false [97] true).delKeyContains
        (GetResponse.mk [⟨[97], []⟩, ⟨[97, 98], []⟩, ⟨[99, 97], []⟩]).Kvs).length ∧
      deleteCalls (delCommandFunc faultyStore ⟨false, false, false, [97], true⟩ [[107]]
        ([⟨[97], []⟩, ⟨[97, 98], []⟩, ⟨[99, 97], []⟩], 2)).trace =
          ((matchingKvs (Flags.mk false false false [97] true).delKeyContains
            (GetResponse.mk [⟨[97], []⟩, ⟨[97, 98], []⟩, ⟨[99, 97], []⟩]).Kvs).take
              (1 + 1)).map (fun kv => (kv.Key, [])) ∧
      (delCommandFunc faultyStore ⟨false, false, false, [97], true⟩ [[107]]
        ([⟨[97], []⟩, ⟨[97, 98], []⟩, ⟨[99, 97], []⟩], 2)).exit =
          some ⟨.ExitError, .Store 1⟩) :=
  ⟨(delCommandFunc_store_failure faultyStore ⟨false, false, false, [97], true⟩ [[107]]
      ([⟨[97], []⟩, ⟨[97, 98], []⟩, ⟨[99, 97], []⟩], 0)).2.2.1 _ _ (by decide) ⟨_, rfl⟩ rfl,
    (delCommandFunc_store_failure faultyStore ⟨false, false, false, [97], true⟩ [[107]]
      ([⟨[97], []⟩, ⟨[97, 98], []⟩, ⟨[99, 97], []⟩], 2)).2.2.2 _
        ⟨[⟨[97], []⟩, ⟨[97, 98], []⟩, ⟨[99, 97], []⟩]⟩ 1 (.Store 1) (by decide) rfl
        ⟨_, rfl⟩ rfl (by decide)⟩

/-- C15: `getDelOp` is a pure function of `args` and the flags. Run on the
package-level flag variables it ends with those variables unchanged and with the
result that `getDelOp` computes from their initial values, or with the same
failure; run twice in a row it gives the same key and option list both times. -/
theorem getDelOpGlobals_pure (f : Flags) (args : List GoString) :
    (getDelOpGlobals args).run f = (getDelOp f args).map (fun r => (r, f)) ∧
      (getDelOpGlobals args >>= fun a => getDelOpGlobals args >>= fun b => pure (a, b)).run f =
        (getDelOp f args).map (fun r => ((r, r), f)) := by
  have h1 : (getDelOpGlobals args).run f = (getDelOp f args).map (fun r => (r, f)) := by
    obtain ⟨p, pv, fk, kc, ex⟩ := f
    match args with
    | [] => rfl
    | [[]] => cases p <;> cases fk <;> cases pv <;> rfl
    | [_ :: _] => cases p <;> cases fk <;> cases pv <;> rfl
    | [[], _] => cases p <;> cases fk <;> cases pv <;> rfl
    | [_ :: _, _] => cases p <;> cases fk <;> cases pv <;> rfl
    | _ :: _ :: _ :: _ =>
      simp [getDelOpGlobals, getDelOp, bind, Except.bind, throw, throwThe, MonadExceptOf.throw,
        StateT.bind, StateT.run, Except.map, StateT.lift]
  refine ⟨h1, ?_⟩
  rw [StateT.run_bind, h1]
  cases hr : getDelOp f args with
  | error e => rfl
  | ok r =>
    show ((getDelOpGlobals args >>= fun b =>
      (pure (r, b) : StateT Flags (Except Exit) _)).run f) = _
    rw [StateT.run_bind, h1, hr]
    rfl

/-- C17: for the single empty argument and every value of `delPrevKV`,
`getDelOp` with `delPrefix` set and `getDelOp` with `delFromKey` set return the
same key, the zero byte, and option lists that are equal as multisets
(`WithFromKey`, plus `WithPrevKV` when `delPrevKV` is set), so both stand for
the same delete request. -/
theorem getDelOp_emptyKey_prefix_eq_fromKey (pv : Bool) (kc : GoString) (ex : Bool) :
    ∃ optsPrefix optsFromKey,
      getDelOp ⟨true, pv, false, kc, ex⟩ [[]] = .ok ([0], optsPrefix) ∧
      getDelOp ⟨false, pv, true, kc, ex⟩ [[]] = .ok ([0], optsFromKey) ∧
      optsPrefix.Perm optsFromKey ∧
      optsPrefix.Perm (.WithFromKey :: (if pv then [.WithPrevKV] else [])) ∧
      toDeleteRequest ([0], optsPrefix) = toDeleteRequest ([0], optsFromKey) ∧
      toDeleteRequest ([0], optsPrefix) = ⟨[0], [.WithFromKey], pv⟩ := by
  cases pv
  · exact ⟨[.WithFromKey], [.WithFromKey], rfl, rfl, List.Perm.refl _, List.Perm.refl _,
      by decide, by decide⟩
  · exact ⟨[.WithFromKey, .WithPrevKV], [.WithPrevKV, .WithFromKey], rfl, rfl,
      List.Perm.swap _ _ _, List.Perm.refl _, by decide, by decide⟩

/-- C18: every successful result of `getDelOp` holds at most one range-shaping
option (`WithRange`, `WithPrefix`, `WithFromKey`), at most one `WithPrevKV`,
nothing else, and so at most two options. -/
theorem getDelOp_options_bound (f : Flags) (args : List GoString) (key : GoString)
    (opts : List OpOption) (h : getDelOp f args = .ok (key, opts)) :
    (opts.filter isRangeOption).length ≤ 1 ∧ opts.count .WithPrevKV ≤ 1 ∧
      opts.length = (opts.filter isRangeOption).length + opts.count .WithPrevKV ∧
      opts.length ≤ 2 := by
  obtain ⟨p, pv, fk, kc, ex⟩ := f
  match args with
  | [] => simp [getDelOp_eq] at h
  | [k] =>
    by_cases hk : k = [] <;> cases p <;> cases fk <;> cases pv <;>
      simp [getDelOp_eq, hk] at h <;> obtain ⟨-, rfl⟩ := h <;> simp [isRangeOption]
  | [k, e] =>
    cases p <;> cases fk <;> cases pv <;>
      simp [getDelOp_eq] at h <;> obtain ⟨-, rfl⟩ := h <;> simp [isRangeOption]
  | _ :: _ :: _ :: _ => simp [getDelOp_eq] at h

/-- Witness for C18: `del --from-key --prev-kv a`. -/
theorem getDelOp_options_bound_witness :
    getDelOp ⟨false, true, true, [], false⟩ [[97]] = .ok ([97], [.WithPrevKV, .WithFromKey]) ∧
      (([.WithPrevKV, .WithFromKey] : List OpOption).filter isRangeOption).length ≤ 1 ∧
      ([.WithPrevKV, .WithFromKey] : List OpOption).count .WithPrevKV ≤ 1 ∧
      ([.WithPrevKV, .WithFromKey] : List OpOption).length =
        (([.WithPrevKV, .WithFromKey] : List OpOption).filter isRangeOption).length +
          ([.WithPrevKV, .WithFromKey] : List OpOption).count .WithPrevKV ∧
      ([.WithPrevKV, .WithFromKey] : List OpOption).length ≤ 2 :=
  ⟨rfl, getDelOp_options_bound ⟨false, true, true, [], false⟩ [[97]] [97]
    [.WithPrevKV, .WithFromKey] rfl⟩

/-- The delete calls of the loop are, in scan order, calls by exact key with no
options for an initial segment of the matching key-values, and its match
reports are the keys of an initial segment of the matching key-values. -/
theorem delContainsLoop_calls_initial {σ : Type} (c : Client σ) (f : Flags)
    (kvs : List KeyValue) (s : σ) :
    deleteCalls (delContainsLoop c f kvs s).trace <+:
        (matchingKvs f.delKeyContains kvs).map (fun kv => (kv.Key, [])) ∧
      matchReports (delContainsLoop c f kvs s).trace <+:
        (matchingKvs f.delKeyContains kvs).map KeyValue.Key := by
  cases hex : f.delExecute
  · rw [delContainsLoop_dryRun c f hex kvs s]
    obtain ⟨-, h2, h3⟩ := calls_map_printFound (matchingKvs f.delKeyContains kvs)
    rw [h2, h3]
    exact ⟨List.nil_prefix, List.prefix_refl _⟩
  · induction kvs generalizing s with
    | nil => exact ⟨List.nil_prefix, List.nil_prefix⟩
    | cons kv kvs ih =>
      rw [matchingKvs_cons]
      by_cases h : stringsContains kv.Key f.delKeyContains = true
      · rw [if_pos h]
        rcases hd : c.Delete s kv.Key [] with ⟨s1, err | resp⟩
        · rw [delContainsLoop_cons_error c f kv kvs s s1 err h hex hd]
          exact ⟨List.cons_prefix_cons.2 ⟨rfl, List.nil_prefix⟩,
            List.cons_prefix_cons.2 ⟨rfl, List.nil_prefix⟩⟩
        · rw [delContainsLoop_cons_ok c f kv kvs s s1 resp h hex hd]
          exact ⟨List.cons_prefix_cons.2 ⟨rfl, (ih s1).1⟩,
            List.cons_prefix_cons.2 ⟨rfl, (ih s1).2⟩⟩
      · rw [if_neg h, delContainsLoop_cons_skip c f kv kvs s h]
        exact ih s

/-- Every delete call of the loop is issued with no options. -/
theorem delContainsLoop_deleteCalls_noOpts {σ : Type} (c : Client σ) (f : Flags)
    (kvs : List KeyValue) (s : σ) :
    ∀ call ∈ deleteCalls (delContainsLoop c f kvs s).trace, call.2 = [] := by
  intro call hcall
  have hmem := (delContainsLoop_calls_initial c f kvs s).1.subset hcall
  obtain ⟨kv, -, rfl⟩ := List.mem_map.1 hmem
  rfl

/-- C14: for the same scan result and the same non-empty `delKeyContains`, the
keys deleted by a run with `delExecute` set, when every delete of that run
succeeds, are exactly the keys reported by the dry run with `delExecute` unset,
in the same order; both are the keys of the matching key-values. -/
theorem delCommandFunc_dryRun_reports_eq_deletes {σ τ : Type} (c : Client σ) (d : Client τ)
    (f g : Flags) (args args' : List GoString) (s s' : σ) (t t' : τ) (resp : GetResponse)
    (hne : f.delKeyContains ≠ []) (hkc : g.delKeyContains = f.delKeyContains)
    (hexec : f.delExecute = true) (hdry : g.delExecute = false)
    (hvalid : ∃ r, getDelOp f args = .ok r) (hvalid' : ∃ r, getDelOp g args' = .ok r)
    (hscan : c.Get s [0] [.WithRange [], .WithFromKey] = (s', .ok resp))
    (hscan' : d.Get t [0] [.WithRange [], .WithFromKey] = (t', .ok resp))
    (hdel : ∀ ev ∈ (delCommandFunc c f args s).trace, failedDelete ev = false) :
    (deleteCalls (delCommandFunc c f args s).trace).map Prod.fst =
        matchReports (delCommandFunc d g args' t).trace ∧
      matchReports (delCommandFunc d g args' t).trace =
        (matchingKvs f.delKeyContains resp.Kvs).map KeyValue.Key ∧
      deleteCalls (delCommandFunc d g args' t).trace = [] := by
  have hne' : g.delKeyContains ≠ [] := hkc ▸ hne
  rw [delCommandFunc_scan_ok c f args s s' resp hne hvalid hscan] at hdel ⊢
  rw [delCommandFunc_scan_ok d g args' t t' resp hne' hvalid' hscan',
    delContainsLoop_dryRun d g hdry, hkc]
  obtain ⟨-, resps, hlen, htr⟩ := delContainsLoop_execute c f hexec resp.Kvs s'
    (fun ev hmem => hdel ev (by simp [Outcome.after, hmem]))
  obtain ⟨-, h2, -, -⟩ := calls_executedMatches _ resps hlen
  obtain ⟨-, k2, k3⟩ := calls_map_printFound (matchingKvs f.delKeyContains resp.Kvs)
  have hE : deleteCalls ((delContainsLoop c f resp.Kvs s').after
      [.Get [0] [.WithRange [], .WithFromKey] (.ok resp)]).trace =
        deleteCalls (delContainsLoop c f resp.Kvs s').trace := rfl
  have hD : matchReports (Outcome.after
      [.Get [0] [.WithRange [], .WithFromKey] (.ok resp)]
      (⟨(matchingKvs f.delKeyContains resp.Kvs).map (fun kv => .PrintFound kv.Key kv.Key),
        t', none⟩ : Outcome τ)).trace =
        matchReports ((matchingKvs f.delKeyContains resp.Kvs).map
          (fun kv => Event.PrintFound kv.Key kv.Key)) := rfl
  have hD' : deleteCalls (Outcome.after
      [.Get [0] [.WithRange [], .WithFromKey] (.ok resp)]
      (⟨(matchingKvs f.delKeyContains resp.Kvs).map (fun kv => .PrintFound kv.Key kv.Key),
        t', none⟩ : Outcome τ)).trace =
        deleteCalls ((matchingKvs f.delKeyContains resp.Kvs).map
          (fun kv => Event.PrintFound kv.Key kv.Key)) := rfl
  rw [hE, hD, hD', htr, h2, k2, k3]
  refine ⟨?_, rfl, rfl⟩
  rw [List.map_map]
  rfl

/-- Witness for C14: the executing run and the dry run for the substring "a"
over the same three stored keys. -/
theorem delCommandFunc_dryRun_reports_eq_deletes_witness :
    (deleteCalls (delCommandFunc listStore ⟨false, false, false, [97], true⟩ [[107]]
        [⟨[97, 98], []⟩, ⟨[99], []⟩, ⟨[100, 97], [5]⟩]).trace).map Prod.fst =
        matchReports (delCommandFunc listStore ⟨false, false, false, [97], false⟩ [[107]]
          [⟨[97, 98], []⟩, ⟨[99], []⟩, ⟨[100, 97], [5]⟩]).trace ∧
      matchReports (delCommandFunc listStore ⟨false, false, false, [97], false⟩ [[107]]
          [⟨[97, 98], []⟩, ⟨[99], []⟩, ⟨[100, 97], [5]⟩]).trace =
        (matchingKvs (Flags.mk false false false [97] true).delKeyContains
          (GetResponse.mk [⟨[97, 98], []⟩, ⟨[99], []⟩, ⟨[100, 97], [5]⟩]).Kvs).map
            KeyValue.Key ∧
      deleteCalls (delCommandFunc listStore ⟨false, false, false, [97], false⟩ [[107]]
          [⟨[97, 98], []⟩, ⟨[99], []⟩, ⟨[100, 97], [5]⟩]).trace = [] :=
  delCommandFunc_dryRun_reports_eq_deletes listStore listStore
    ⟨false, false, false, [97], true⟩ ⟨false, false, false, [97], false⟩ [[107]] [[107]]
    [⟨[97, 98], []⟩, ⟨[99], []⟩, ⟨[100, 97], [5]⟩] [⟨[97, 98], []⟩, ⟨[99], []⟩, ⟨[100, 97], [5]⟩]
    [⟨[97, 98], []⟩, ⟨[99], []⟩, ⟨[100, 97], [5]⟩] [⟨[97, 98], []⟩, ⟨[99], []⟩, ⟨[100, 97], [5]⟩]
    ⟨[⟨[97, 98], []⟩, ⟨[99], []⟩, ⟨[100, 97], [5]⟩]⟩ (by decide) rfl rfl rfl ⟨_, rfl⟩ ⟨_, rfl⟩
    rfl rfl (by decide)

/-- In substring mode with valid arguments the trace starts with the one scan
call, at the zero byte with `WithRange("")` then `WithFromKey`. -/
theorem delCommandFunc_scan_first {σ : Type} (c : Client σ) (f : Flags)
    (args : List GoString) (s : σ)
    (hkc : f.delKeyContains ≠ []) (hvalid : ∃ r, getDelOp f args = .ok r) :
    scanCalls (delCommandFunc c f args s).trace = [([0], [.WithRange [], .WithFromKey])] ∧
      (delCommandFunc c f args s).trace.head? =
        some (.Get [0] [.WithRange [], .WithFromKey]
          (c.Get s [0] [.WithRange [], .WithFromKey]).2) := by
  rcases hd : c.Get s [0] [.WithRange [], .WithFromKey] with ⟨s1, err | resp⟩
  · rw [delCommandFunc_scan_error c f args s s1 err hkc hvalid hd]
    exact ⟨rfl, rfl⟩
  · rw [delCommandFunc_scan_ok c f args s s1 resp hkc hvalid hd]
    exact ⟨congrArg
      (List.cons (([0] : GoString), [OpOption.WithRange [], OpOption.WithFromKey]))
      (delContainsLoop_scanCalls c f resp.Kvs s1), rfl⟩

/-- C16: in substring mode the scan request does not depend on
`delKeyContains`: the run issues one scan call, its first event, at the zero
byte with the options `WithRange("")` then `WithFromKey`, the same for every
other non-empty `delKeyContains`. The substring is applied to the returned
key-values only: the match reports and the deleted keys are, in scan order, keys
of returned key-values that contain `delKeyContains`. -/
theorem delCommandFunc_scan_request {σ : Type} (c : Client σ) (f : Flags)
    (args : List GoString) (s : σ)
    (hkc : f.delKeyContains ≠ []) (hvalid : ∃ r, getDelOp f args = .ok r) :
    scanCalls (delCommandFunc c f args s).trace = [([0], [.WithRange [], .WithFromKey])] ∧
      (delCommandFunc c f args s).trace.head? =
        some (.Get [0] [.WithRange [], .WithFromKey]
          (c.Get s [0] [.WithRange [], .WithFromKey]).2) ∧
      (∀ (g : Flags) (args' : List GoString), g.delKeyContains ≠ [] →
        (∃ r, getDelOp g args' = .ok r) →
        scanCalls (delCommandFunc c g args' s).trace =
          scanCalls (delCommandFunc c f args s).trace) ∧
      (∀ s' resp, c.Get s [0] [.WithRange [], .WithFromKey] = (s', .ok resp) →
        matchReports (delCommandFunc c f args s).trace <+:
            (matchingKvs f.delKeyContains resp.Kvs).map KeyValue.Key ∧
          deleteCalls (delCommandFunc c f args s).trace <+:
            (matchingKvs f.delKeyContains resp.Kvs).map (fun kv => (kv.Key, []))) := by
  obtain ⟨h1, h2⟩ := delCommandFunc_scan_first c f args s hkc hvalid
  refine ⟨h1, h2, ?_, ?_⟩
  · intro g args' hg hvalid'
    rw [h1, (delCommandFunc_scan_first c g args' s hg hvalid').1]
  · intro s' resp hscan
    rw [delCommandFunc_scan_ok c f args s s' resp hkc hvalid hscan]
    exact ⟨(delContainsLoop_calls_initial c f resp.Kvs s').2,
      (delContainsLoop_calls_initial c f resp.Kvs s').1⟩

/-- Witness for C16: the scan of `del --key-contains=a k` and of
`del --key-contains=zz k` on the same store. -/
theorem delCommandFunc_scan_request_witness :
    scanCalls (delCommandFunc listStore ⟨false, false, false, [97], false⟩ [[107]]
        [⟨[97, 98], []⟩, ⟨[99], []⟩]).trace = [([0], [.WithRange [], .WithFromKey])] ∧
      scanCalls (delCommandFunc listStore ⟨false, false, false, [122, 122], false⟩ [[107]]
        [⟨[97, 98], []⟩, ⟨[99], []⟩]).trace =
          scanCalls (delCommandFunc listStore ⟨false, false, false, [97], false⟩ [[107]]
            [⟨[97, 98], []⟩, ⟨[99], []⟩]).trace ∧
      matchReports (delCommandFunc listStore ⟨false, false, false, [97], false⟩ [[107]]
        [⟨[97, 98], []⟩, ⟨[99], []⟩]).trace <+:
          (matchingKvs (Flags.mk false false false [97] false).delKeyContains
            (GetResponse.mk [⟨[97, 98], []⟩, ⟨[99], []⟩]).Kvs).map KeyValue.Key :=
  have h := delCommandFunc_scan_request listStore ⟨false, false, false, [97], false⟩ [[107]]
    [⟨[97, 98], []⟩, ⟨[99], []⟩] (by decide) ⟨_, rfl⟩
  ⟨h.1, h.2.2.1 ⟨false, false, false, [122, 122], false⟩ [[107]] (by decide) ⟨_, rfl⟩,
    (h.2.2.2 _ ⟨[⟨[97, 98], []⟩, ⟨[99], []⟩]⟩ rfl).1⟩

/-- C19: for a non-empty `delKeyContains`, two runs whose arguments and
`delPrefix`/`delPrevKV`/`delFromKey` flags both pass the validation of
`getDelOp`, on the same store and with the same `delExecute`, have the same
trace, so the same store calls and reports in the same order, and the same
exit; every delete call of the run has an empty option list, so it never
carries `WithPrevKV`. -/
theorem delCommandFunc_keyContains_same_calls {σ : Type} (c : Client σ)
    (f g : Flags) (args args' : List GoString) (s : σ)
    (hne : f.delKeyContains ≠ [])
    (hkc : g.delKeyContains = f.delKeyContains) (hex : g.delExecute = f.delExecute)
    (hvalid : ∃ r, getDelOp f args = .ok r) (hvalid' : ∃ r, getDelOp g args' = .ok r) :
    (delCommandFunc c f args s).trace = (delCommandFunc c g args' s).trace ∧
      scanCalls (delCommandFunc c f args s).trace =
        scanCalls (delCommandFunc c g args' s).trace ∧
      deleteCalls (delCommandFunc c f args s).trace =
        deleteCalls (delCommandFunc c g args' s).trace ∧
      matchReports (delCommandFunc c f args s).trace =
        matchReports (delCommandFunc c g args' s).trace ∧
      delReports (delCommandFunc c f args s).trace =
        delReports (delCommandFunc c g args' s).trace ∧
      (delCommandFunc c f args s).exit = (delCommandFunc c g args' s).exit ∧
      (∀ call ∈ deleteCalls (delCommandFunc c f args s).trace,
        call.2 = [] ∧ OpOption.WithPrevKV ∉ call.2) := by
  have hne' : g.delKeyContains ≠ [] := hkc ▸ hne
  have hrun : delCommandFunc c f args s = delCommandFunc c g args' s := by
    rcases hd : c.Get s [0] [.WithRange [], .WithFromKey] with ⟨s1, err | resp⟩
    · rw [delCommandFunc_scan_error c f args s s1 err hne hvalid hd,
        delCommandFunc_scan_error c g args' s s1 err hne' hvalid' hd]
    · rw [delCommandFunc_scan_ok c f args s s1 resp hne hvalid hd,
        delCommandFunc_scan_ok c g args' s s1 resp hne' hvalid' hd,
        delContainsLoop_flags c f g hkc hex]
  refine ⟨by rw [hrun], by rw [hrun], by rw [hrun], by rw [hrun], by rw [hrun], by rw [hrun],
    ?_⟩
  intro call hcall
  have hnil : call.2 = [] := by
    rcases hd : c.Get s [0] [.WithRange [], .WithFromKey] with ⟨s1, err | resp⟩
    · rw [delCommandFunc_scan_error c f args s s1 err hne hvalid hd] at hcall
      simp [deleteCalls] at hcall
    · rw [delCommandFunc_scan_ok c f args s s1 resp hne hvalid hd] at hcall
      exact delContainsLoop_deleteCalls_noOpts c f resp.Kvs s1 call hcall
  exact ⟨hnil, by simp [hnil]⟩

/-- Witness for C19: `del --key-contains=a --execute k` and
`del --key-contains=a --execute --prev-kv --from-key x` on the same store. -/
theorem delCommandFunc_keyContains_same_calls_witness :
    (delCommandFunc listStore ⟨false, false, false, [97], true⟩ [[107]]
        [⟨[97, 98], []⟩, ⟨[99], []⟩]).trace =
      (delCommandFunc listStore ⟨false, true, true, [97], true⟩ [[120]]
        [⟨[97, 98], []⟩, ⟨[99], []⟩]).trace ∧
      deleteCalls (delCommandFunc listStore ⟨false, false, false, [97], true⟩ [[107]]
        [⟨[97, 98], []⟩, ⟨[99], []⟩]).trace =
      deleteCalls (delCommandFunc listStore ⟨false, true, true, [97], true⟩ [[120]]
        [⟨[97, 98], []⟩, ⟨[99], []⟩]).trace ∧
      (∀ call ∈ deleteCalls (delCommandFunc listStore ⟨false, false, false, [97], true⟩ [[107]]
          [⟨[97, 98], []⟩, ⟨[99], []⟩]).trace,
        call.2 = [] ∧ OpOption.WithPrevKV ∉ call.2) :=
  have h := delCommandFunc_keyContains_same_calls listStore ⟨false, false, false, [97], true⟩
    ⟨false, true, true, [97], true⟩ [[107]] [[120]] [⟨[97, 98], []⟩, ⟨[99], []⟩]
    (by decide) rfl rfl ⟨_, rfl⟩ ⟨_, rfl⟩
  ⟨h.1, h.2.2.1, h.2.2.2.2.2.2⟩

end DelCommand
